import Mathlib

/-!
Shallow embedding of the grate repository's buffer-object manager,
framebuffer manager, file-wrapper registry and chip-identity resolver
(src/libgrate/grate.c and the file-wrapper utility source), together with
theorems settling the specification's claims against the embedded code.

External collaborators (the host1x allocator, mmap, the filesystem) are
modelled as explicit state / oracle parameters; the control flow of each
embedded function follows the C source line by line.
-/

set_option maxHeartbeats 1000000

/-- A grate buffer object (`struct grate_bo`): handle of the backing
host1x bo, byte size, and byte offset into the backing allocation. -/
structure grate_bo where
  bo : Nat
  size : Nat
  offset : Nat
deriving Repr, DecidableEq

/-- `grate_wrap_bo` from grate.c: if `offset >= bo->size` return NULL;
otherwise `calloc` a new record (allocation failure modelled by
`callocOk = false`) sharing the parent's backing `bo` field, with
`size = bo->size - offset` and `offset = bo->offset + offset`. -/
def grate_wrap_bo (callocOk : Bool) (bo : grate_bo) (offset : Nat) :
    Option grate_bo :=
  if bo.size ≤ offset then none
  else if callocOk then
    some { bo := bo.bo, size := bo.size - offset, offset := bo.offset + offset }
  else none

/-- Resource heap for `grate_framebuffer_create`: `next` is the next fresh
resource id, `live` the ids of currently allocated resources (the
calloc'd framebuffer record and each host1x framebuffer). -/
structure FbHeap where
  next : Nat
  live : List Nat
deriving Repr, DecidableEq

/-- Allocate one resource from the heap; `ok = false` models allocation
failure (calloc returning NULL / host1x_framebuffer_create failing). -/
def fbAlloc (ok : Bool) (h : FbHeap) : Option Nat × FbHeap :=
  if ok then (some h.next, { next := h.next + 1, live := h.next :: h.live })
  else (none, h)

/-- Release one resource (free / host1x_framebuffer_free). -/
def fbFree (n : Nat) (h : FbHeap) : FbHeap :=
  { h with live := h.live.erase n }

/-- A grate framebuffer record: the calloc'd record's resource id, the
front host1x framebuffer, and the back one when double-buffered. -/
structure grate_framebuffer where
  record : Nat
  front : Nat
  back : Option Nat
deriving Repr, DecidableEq

/-- `grate_framebuffer_create` from grate.c.  `callocOk` is the outcome of
`calloc(1, sizeof(*fb))`, `frontOk`/`backOk` the outcomes of the two
`host1x_framebuffer_create` calls, `doubleBuffered` the truth of
`flags & GRATE_DOUBLE_BUFFERED`.  On back-buffer failure the source frees
the front framebuffer and then the record, in that order. -/
def grate_framebuffer_create (callocOk frontOk backOk : Bool)
    (doubleBuffered : Bool) (h : FbHeap) :
    Option grate_framebuffer × FbHeap :=
  match fbAlloc callocOk h with
  | (none, h1) => (none, h1)
  | (some fbRec, h1) =>
    match fbAlloc frontOk h1 with
    | (none, h2) => (none, fbFree fbRec h2)
    | (some front, h2) =>
      if doubleBuffered then
        match fbAlloc backOk h2 with
        | (none, h3) => (none, fbFree fbRec (fbFree front h3))
        | (some back, h3) =>
          (some { record := fbRec, front := front, back := some back }, h3)
      else
        (some { record := fbRec, front := front, back := none }, h2)

/-- The chip-id enumeration used by `tegra_chip_id`. -/
inductive chip_id where
  | TEGRA_INVALID
  | TEGRA_UNKNOWN
  | TEGRA20
  | TEGRA30
  | TEGRA114
deriving Repr, DecidableEq

/-- `read_chip_id` from the wrapper source.  The filesystem is modelled by
`fs : String → Option Nat`: `none` means `fopen` fails (giving
`TEGRA_INVALID`); `some v` means the file opened and the integer scanned is
`v` (an `fscanf` failure leaves the scanned id at `0`, which the switch
maps to `TEGRA_UNKNOWN`, so it is subsumed by `some 0`). -/
def read_chip_id (fs : String → Option Nat) (path : String) : chip_id :=
  match fs path with
  | none => chip_id.TEGRA_INVALID
  | some id =>
    if id = 0x20 then chip_id.TEGRA20
    else if id = 0x30 then chip_id.TEGRA30
    else if id = 0x35 then chip_id.TEGRA114
    else chip_id.TEGRA_UNKNOWN

/-- The fixed candidate path list of `tegra_chip_id`. -/
def tegra_chip_paths : List String :=
  ["/sys/module/tegra_fuse/parameters/tegra_chip_id",
   "/sys/module/fuse/parameters/tegra_chip_id",
   "/sys/devices/soc0/soc_id"]

/-- The scanning loop of `tegra_chip_id`: try each candidate path in
order, returning the first non-invalid read; if every candidate is
unreadable, fall through to `TEGRA_UNKNOWN`. -/
def chipScan (fs : String → Option Nat) : List String → chip_id
  | [] => chip_id.TEGRA_UNKNOWN
  | p :: rest =>
    let id := read_chip_id fs p
    if id ≠ chip_id.TEGRA_INVALID then id else chipScan fs rest

/-- `tegra_chip_id` from the wrapper source, with the `static enum chip_id
id` cache made explicit: takes the cached value, returns the result
together with the new cache value. -/
def tegra_chip_id (fs : String → Option Nat) (cached : chip_id) :
    chip_id × chip_id :=
  if cached ≠ chip_id.TEGRA_INVALID then (cached, cached)
  else
    let r := chipScan fs tegra_chip_paths
    (r, r)

theorem chipScan_ne_invalid (fs : String → Option Nat) :
    ∀ ps : List String, chipScan fs ps ≠ chip_id.TEGRA_INVALID := by
  intro ps
  induction ps with
  | nil => simp [chipScan]
  | cons p rest ih =>
    simp only [chipScan]
    by_cases h : read_chip_id fs p = chip_id.TEGRA_INVALID
    · simp [h, ih]
    · simp [h]

/-- C7: chip identity resolution is idempotent and memoized.  Starting
from the unresolved cache, the first call stores its own result in the
cache, and any subsequent call — even against a filesystem `fs2` whose
contents differ arbitrarily from `fs1` — returns the first call's value
and leaves the cache unchanged, without the scan influencing the result. -/
theorem tegra_chip_id_memoized (fs1 fs2 : String → Option Nat) :
    (tegra_chip_id fs1 chip_id.TEGRA_INVALID).2
      = (tegra_chip_id fs1 chip_id.TEGRA_INVALID).1
    ∧ tegra_chip_id fs2 (tegra_chip_id fs1 chip_id.TEGRA_INVALID).2
      = ((tegra_chip_id fs1 chip_id.TEGRA_INVALID).1,
         (tegra_chip_id fs1 chip_id.TEGRA_INVALID).2) := by
  have h1 : tegra_chip_id fs1 chip_id.TEGRA_INVALID
      = (chipScan fs1 tegra_chip_paths, chipScan fs1 tegra_chip_paths) := by
    simp [tegra_chip_id]
  refine ⟨by rw [h1], ?_⟩
  rw [h1]
  simp [tegra_chip_id, chipScan_ne_invalid]

/-- C3: for `offset < parent.size`, wrapping succeeds (given the record
allocation succeeds) and yields a view aliasing the parent's backing
object with size `parent.size - offset` and absolute offset
`parent.offset + offset`; for `offset ≥ parent.size` it fails regardless
of allocation. -/
theorem grate_wrap_bo_spec (bo : grate_bo) (offset : Nat) :
    (offset < bo.size →
      grate_wrap_bo true bo offset
        = some { bo := bo.bo, size := bo.size - offset,
                 offset := bo.offset + offset })
    ∧ (bo.size ≤ offset → ∀ ok, grate_wrap_bo ok bo offset = none) := by
  constructor
  · intro h
    simp [grate_wrap_bo, Nat.not_le.mpr h]
  · intro h ok
    simp [grate_wrap_bo, h]

theorem grate_wrap_bo_spec_witness :
    grate_wrap_bo true ⟨5, 10, 2⟩ 3 = some ⟨5, 7, 5⟩
    ∧ grate_wrap_bo true ⟨5, 10, 2⟩ 10 = none :=
  ⟨(grate_wrap_bo_spec ⟨5, 10, 2⟩ 3).1 (by decide),
   (grate_wrap_bo_spec ⟨5, 10, 2⟩ 10).2 (by decide) true⟩

/-- C9: wrapping composes — wrapping a wrap at offsets `a` then `c` gives
exactly the same view as wrapping the original at `a + c`: same backing
object, absolute offset `b.offset + a + c`, size `b.size - a - c`. -/
theorem grate_wrap_bo_compose (b : grate_bo) (a c : Nat)
    (ha : a < b.size) (hc : c < b.size - a) :
    ∃ w1, grate_wrap_bo true b a = some w1
      ∧ grate_wrap_bo true w1 c = grate_wrap_bo true b (a + c)
      ∧ ∃ w2, grate_wrap_bo true w1 c = some w2
          ∧ w2.bo = b.bo ∧ w2.offset = b.offset + a + c
          ∧ w2.size = b.size - a - c := by
  refine ⟨{ bo := b.bo, size := b.size - a, offset := b.offset + a }, ?_, ?_, ?_⟩
  · simp [grate_wrap_bo, Nat.not_le.mpr ha]
  · have h2 : ¬ (b.size - a ≤ c) := Nat.not_le.mpr hc
    have h3 : ¬ (b.size ≤ a + c) := by omega
    have e1 : b.size - a - c = b.size - (a + c) := by omega
    have e2 : b.offset + a + c = b.offset + (a + c) := by omega
    simp [grate_wrap_bo, if_neg h2, if_neg h3, e1, e2]
    omega
  · refine ⟨{ bo := b.bo, size := b.size - a - c,
              offset := b.offset + a + c }, ?_, rfl, rfl, rfl⟩
    simp [grate_wrap_bo, Nat.not_le.mpr hc]

theorem grate_wrap_bo_compose_witness :
    ∃ w1, grate_wrap_bo true ⟨5, 10, 0⟩ 2 = some w1
      ∧ grate_wrap_bo true w1 3 = grate_wrap_bo true ⟨5, 10, 0⟩ 5
      ∧ ∃ w2, grate_wrap_bo true w1 3 = some w2
          ∧ w2.bo = 5 ∧ w2.offset = 5 ∧ w2.size = 5 :=
  grate_wrap_bo_compose ⟨5, 10, 0⟩ 2 3 (by decide) (by decide)

/-- C2: with double-buffering requested, if the back-buffer allocation
fails then `grate_framebuffer_create` fails atomically: it frees the front
pixel buffer and the framebuffer record, returns NULL, and the set of live
resources is exactly what it was before the call. -/
theorem grate_framebuffer_create_atomic (h : FbHeap) :
    grate_framebuffer_create true true false true h
      = (none, { next := h.next + 2, live := h.live }) := by
  simp [grate_framebuffer_create, fbAlloc, fbFree, List.erase_cons]

/-- State of the host1x buffer-object provider: `next` is the next fresh
bo handle, `mem` maps each live handle to the bytes of its backing store,
`mapped` lists the handles with a live process mapping. -/
structure H1xState where
  next : Nat
  mem : List (Nat × List Nat)
  mapped : List Nat
deriving Repr, DecidableEq

/-- First binding of a key in the store. -/
def memLookup (m : List (Nat × List Nat)) (k : Nat) : Option (List Nat) :=
  match m with
  | [] => none
  | p :: rest => if p.1 = k then some p.2 else memLookup rest k

/-- Overwrite `src.length` bytes of `dst` starting at byte `off`. -/
def writeBytes (dst : List Nat) (off : Nat) (src : List Nat) : List Nat :=
  dst.take off ++ src ++ dst.drop (off + src.length)

/-- Write `src` at offset `off` of the backing store of handle `k`. -/
def memWrite (m : List (Nat × List Nat)) (k : Nat) (off : Nat)
    (src : List Nat) : List (Nat × List Nat) :=
  m.map (fun p => if p.1 = k then (p.1, writeBytes p.2 off src) else p)

/-- `host1x_bo_create` (external provider): on success returns a fresh
handle whose backing store holds `contents` (the allocator makes no
contract on initial content, so the caller passes arbitrary bytes). -/
def host1x_bo_create (ok : Bool) (contents : List Nat) (h : H1xState) :
    Option Nat × H1xState :=
  if ok then
    (some h.next,
     { next := h.next + 1, mem := (h.next, contents) :: h.mem,
       mapped := h.mapped })
  else (none, h)

/-- `host1x_bo_free` (external provider): drops the backing store and any
mapping of the handle. -/
def host1x_bo_free (bo : Nat) (h : H1xState) : H1xState :=
  { h with mem := h.mem.filter (fun p => p.1 ≠ bo),
           mapped := h.mapped.erase bo }

/-- `host1x_bo_mmap` (external provider): on success returns the backing
bytes of the handle (the base pointer's view) and records the mapping as
live; `ok = false` models an mmap failure. -/
def host1x_bo_mmap (ok : Bool) (bo : Nat) (h : H1xState) :
    Option (List Nat) × H1xState :=
  match memLookup h.mem bo with
  | none => (none, h)
  | some contents =>
    if ok then (some contents, { h with mapped := bo :: h.mapped })
    else (none, h)

/-- `grate_bo_map` from grate.c: `host1x_bo_mmap(bo->bo, &ptr)`, failing
on mmap error, else returning `ptr + bo->offset` — modelled as the backing
bytes from `bo.offset` on. -/
def grate_bo_map (mapOk : Bool) (bo : grate_bo) (h : H1xState) :
    Option (List Nat) × H1xState :=
  match host1x_bo_mmap mapOk bo.bo h with
  | (none, h1) => (none, h1)
  | (some ptr, h1) => (some (ptr.drop bo.offset), h1)

/-- `grate_bo_unmap` from grate.c: the body is empty — the call changes
nothing and releases nothing. -/
def grate_bo_unmap (bo : grate_bo) (ptr : List Nat) (h : H1xState) :
    H1xState :=
  h

/-- `grate_bo_free` from grate.c: `host1x_bo_free(bo->bo); free(bo)`. -/
def grate_bo_free (bo : grate_bo) (h : H1xState) : H1xState :=
  host1x_bo_free bo.bo h

/-- `grate_bo_invalidate` from grate.c:
`host1x_bo_invalidate(bo->bo, bo->offset, size)` — a device-visibility
flush with no effect on the byte contents of the model. -/
def grate_bo_invalidate (bo : grate_bo) (size : Nat) (h : H1xState) :
    H1xState :=
  h

/-- `grate_bo_create_from_data` from grate.c: calloc the record
(`callocOk`), `host1x_bo_create` of `size` bytes (`allocOk`; `junk` is the
allocator's arbitrary initial content), set `bo->size`, map the bo (on
failure free it and fail), `memcpy(map, data, size)`, invalidate, and
return the bo — without any unmap. -/
def grate_bo_create_from_data (callocOk allocOk mapOk : Bool)
    (junk : List Nat) (size : Nat) (data : List Nat) (h : H1xState) :
    Option grate_bo × H1xState :=
  if callocOk then
    match host1x_bo_create allocOk junk h with
    | (none, h1) => (none, h1)
    | (some handle, h1) =>
      let bo : grate_bo := { bo := handle, size := size, offset := 0 }
      match grate_bo_map mapOk bo h1 with
      | (none, h2) => (none, grate_bo_free bo h2)
      | (some _ptr, h2) =>
        let h3 : H1xState :=
          { h2 with mem := memWrite h2.mem handle bo.offset (data.take size) }
        (some bo, grate_bo_invalidate bo size h3)
  else (none, h)

theorem memLookup_memWrite_self (m : List (Nat × List Nat)) (k : Nat)
    (off : Nat) (src : List Nat) :
    memLookup (memWrite m k off src) k
      = (memLookup m k).map (fun c => writeBytes c off src) := by
  induction m with
  | nil => simp [memLookup, memWrite]
  | cons p rest ih =>
    by_cases hk : p.1 = k
    · simp [memLookup, memWrite, hk]
    · simp only [memLookup, memWrite] at ih ⊢
      simp [hk, ih]

/-- Closed form of a fully successful `grate_bo_create_from_data` run. -/
theorem grate_bo_create_from_data_true (junk : List Nat) (size : Nat)
    (data : List Nat) (h : H1xState) :
    grate_bo_create_from_data true true true junk size data h
      = (some { bo := h.next, size := size, offset := 0 },
         { next := h.next + 1,
           mem := memWrite ((h.next, junk) :: h.mem) h.next 0 (data.take size),
           mapped := h.next :: h.mapped }) := by
  simp [grate_bo_create_from_data, host1x_bo_create, grate_bo_map,
    host1x_bo_mmap, memLookup, grate_bo_invalidate]

theorem writeBytes_zero_full (dst src : List Nat)
    (hlen : src.length = dst.length) :
    writeBytes dst 0 src = src := by
  simp [writeBytes, hlen]

/-- C4: for any size and any data of that size, a successful
`createFromData` followed by a successful `map` and a read of `size` bytes
returns exactly the bytes of `data`. -/
theorem grate_bo_create_from_data_roundtrip (h : H1xState) (size : Nat)
    (data junk : List Nat) (hs : 1 ≤ size) (hd : data.length = size)
    (hj : junk.length = size) :
    ∃ bo h', grate_bo_create_from_data true true true junk size data h
        = (some bo, h')
      ∧ bo.size = size
      ∧ ∃ view, (grate_bo_map true bo h').1 = some view
          ∧ view.take size = data := by
  refine ⟨{ bo := h.next, size := size, offset := 0 }, ?_, ?_, rfl, ?_⟩
  · exact { next := h.next + 1,
            mem := memWrite ((h.next, junk) :: h.mem) h.next 0 (data.take size),
            mapped := h.next :: h.mapped }
  · exact grate_bo_create_from_data_true junk size data h
  · have hwrite : memLookup
        (memWrite ((h.next, junk) :: h.mem) h.next 0 (data.take size)) h.next
        = some (writeBytes junk 0 (data.take size)) := by
      rw [memLookup_memWrite_self]
      simp [memLookup]
    have hfull : writeBytes junk 0 (data.take size) = data := by
      rw [writeBytes_zero_full]
      · exact List.take_of_length_le (by omega)
      · rw [List.length_take, hd, hj]
        omega
    refine ⟨data, ?_, List.take_of_length_le (by omega)⟩
    simp [grate_bo_map, host1x_bo_mmap, hwrite, hfull]

theorem grate_bo_create_from_data_roundtrip_witness :
    ∃ bo h',
      grate_bo_create_from_data true true true [9, 9, 9] 3 [10, 20, 30]
          { next := 0, mem := [], mapped := [] }
        = (some bo, h')
      ∧ bo.size = 3
      ∧ ∃ view, (grate_bo_map true bo h').1 = some view
          ∧ view.take 3 = [10, 20, 30] :=
  grate_bo_create_from_data_roundtrip
    { next := 0, mem := [], mapped := [] } 3 [10, 20, 30] [9, 9, 9]
    (by decide) (by decide) (by decide)

/-- C8 counterexample: at a concrete input, `createFromData` succeeds yet
returns with the mapping it created still live — the backing handle is in
the mapped set when the call returns, so the mapping was not released
before the call returned. -/
theorem grate_bo_create_from_data_mapping_persists_cex :
    ∃ bo, (grate_bo_create_from_data true true true [0] 1 [42]
            { next := 0, mem := [], mapped := [] }).1 = some bo
      ∧ bo.bo ∈ (grate_bo_create_from_data true true true [0] 1 [42]
            { next := 0, mem := [], mapped := [] }).2.mapped := by
  refine ⟨{ bo := 0, size := 1, offset := 0 }, ?_, ?_⟩ <;> decide

/-- C8 amended: whenever `createFromData` returns successfully, the
mapping it created to copy the data is still live when the call returns
(the source performs no unmap), and `grate_bo_unmap` — whose body is
empty — would not release it either. -/
theorem grate_bo_create_from_data_mapping_persists
    (callocOk allocOk mapOk : Bool) (junk : List Nat) (size : Nat)
    (data : List Nat) (h : H1xState) (bo : grate_bo) (h' : H1xState)
    (hsucc : grate_bo_create_from_data callocOk allocOk mapOk junk size data h
      = (some bo, h')) :
    bo.bo ∈ h'.mapped ∧ ∀ ptr, grate_bo_unmap bo ptr h' = h' := by
  refine ⟨?_, fun ptr => rfl⟩
  cases callocOk with
  | false => simp [grate_bo_create_from_data] at hsucc
  | true =>
    cases allocOk with
    | false => simp [grate_bo_create_from_data, host1x_bo_create] at hsucc
    | true =>
      cases mapOk with
      | false =>
        simp [grate_bo_create_from_data, host1x_bo_create, grate_bo_map,
          host1x_bo_mmap, memLookup] at hsucc
      | true =>
        rw [grate_bo_create_from_data_true] at hsucc
        injection hsucc with e1 e2
        injection e1 with e1
        subst e2
        subst e1
        simp

theorem grate_bo_create_from_data_mapping_persists_witness :
    (⟨0, 1, 0⟩ : grate_bo).bo ∈
        (grate_bo_create_from_data true true true [0] 1 [42]
          { next := 0, mem := [], mapped := [] }).2.mapped
      ∧ ∀ ptr, grate_bo_unmap ⟨0, 1, 0⟩ ptr
          (grate_bo_create_from_data true true true [0] 1 [42]
            { next := 0, mem := [], mapped := [] }).2
        = (grate_bo_create_from_data true true true [0] 1 [42]
            { next := 0, mem := [], mapped := [] }).2 :=
  grate_bo_create_from_data_mapping_persists true true true [0] 1 [42]
    { next := 0, mem := [], mapped := [] } ⟨0, 1, 0⟩ _ (by decide)

/-- `struct file` of the wrapper library: a handle id (pointer identity),
the wrapped path, the primary fd, the fixed array of duplicate-fd slots
(`-1` marks an empty slot), and whether the ops table carries a `release`
capability. -/
structure WFile where
  id : Nat
  path : String
  fd : Int
  dup_fds : List Int
  hasRelease : Bool
deriving Repr, DecidableEq

/-- One entry of the pattern table (`struct file_table_entry`): a path
string and the `open` constructor invoked with `(path, fd)`. -/
structure file_table_entry where
  path : String
  openFn : String → Int → Option WFile

/-- `file_put`: invokes the release capability when the ops table has one.
The returned list records the handles whose release actually ran. -/
def file_put (f : WFile) : List WFile :=
  if f.hasRelease then [f] else []

/-- `file_open` from the wrapper source: scan the pattern table in
registration order; on the first exact `strcmp` match invoke the entry's
constructor; on constructor failure return NULL without touching the open
list; on success initialize every duplicate slot to `-1` and
`list_add_tail` the handle onto the open list.  Returns the opened handle
(or none) and the new open list. -/
def file_open (table : List file_table_entry) (path : String) (fd : Int)
    (files : List WFile) : Option WFile × List WFile :=
  match table with
  | [] => (none, files)
  | e :: rest =>
    if e.path = path then
      match e.openFn path fd with
      | none => (none, files)
      | some f =>
        let f' := { f with dup_fds := f.dup_fds.map (fun _ => (-1 : Int)) }
        (some f', files ++ [f'])
    else file_open rest path fd files

/-- `file_lookup` from the wrapper source: linear scan of the open list;
for each file match the primary fd first, then each duplicate slot. -/
def file_lookup (fd : Int) : List WFile → Option WFile
  | [] => none
  | f :: rest =>
    if f.fd = fd then some f
    else if fd ∈ f.dup_fds then some f
    else file_lookup fd rest

/-- `file_dup` from the wrapper source: store `fd` into the first
duplicate slot holding a negative value; if every slot is non-negative,
report "out of FD slots" and change nothing.  Returns the updated file and
whether a slot was found. -/
def dupSlots (fd : Int) : List Int → Option (List Int)
  | [] => none
  | s :: rest =>
    if s < 0 then some (fd :: rest)
    else (dupSlots fd rest).map (fun l => s :: l)

/-- See `dupSlots`; this is the `file_dup` entry point. -/
def file_dup (f : WFile) (fd : Int) : WFile × Bool :=
  match dupSlots fd f.dup_fds with
  | some slots => ({ f with dup_fds := slots }, true)
  | none => (f, false)

/-- The inner loop of `file_close`'s duplicate-fd branch: clear (set to
`-1`) the first slot equal to `fd`, or report that no slot matches. -/
def clearFirst (fd : Int) : List Int → Option (List Int)
  | [] => none
  | s :: rest =>
    if s = fd then some (-1 :: rest)
    else (clearFirst fd rest).map (fun l => s :: l)

/-- `file_close` from the wrapper source.  For each open file in order:
if `fd` is its primary fd, clear the primary and — unless some duplicate
slot is still `>= 0` — unlink the file and `file_put` it; otherwise if
`fd` matches a duplicate slot, clear that slot and, when the primary is
already cleared and every slot is `-1`, unlink and `file_put` the file.
Returns the new open list and the handles whose release ran. -/
def file_close (fd : Int) : List WFile → List WFile × List WFile
  | [] => ([], [])
  | f :: rest =>
    if f.fd = fd then
      let f' := { f with fd := -1 }
      if ∃ s ∈ f.dup_fds, 0 ≤ s then (f' :: rest, [])
      else (rest, file_put f')
    else
      match clearFirst fd f.dup_fds with
      | some slots =>
        let f' := { f with dup_fds := slots }
        if f.fd ≠ -1 then (f' :: rest, [])
        else if ∃ s ∈ slots, s ≠ -1 then (f' :: rest, [])
        else (rest, file_put f')
      | none =>
        let r := file_close fd rest
        (f :: r.1, r.2)

/-- Fold `file_close` over a list of fds, collecting the releases. -/
def file_close_seq (fds : List Int) (files : List WFile) :
    List WFile × List WFile :=
  match fds with
  | [] => (files, [])
  | fd :: rest =>
    let r := file_close fd files
    let r' := file_close_seq rest r.1
    (r'.1, r.2 ++ r'.2)

/-- The occupied (non-negative) duplicate-fd slots. -/
def occSlots (l : List Int) : List Int :=
  l.filter (fun s => decide (0 ≤ s))

/-- The references held on a handle: the primary fd when open, plus every
occupied duplicate slot. -/
def refsOf (f : WFile) : List Int :=
  (if 0 ≤ f.fd then [f.fd] else []) ++ occSlots f.dup_fds

/-- Well-formedness of one handle: the primary fd is `-1` or a real fd,
and every duplicate slot is `-1` or a real fd. -/
def wfFile (f : WFile) : Prop :=
  (f.fd = -1 ∨ 0 ≤ f.fd) ∧ ∀ s ∈ f.dup_fds, s = -1 ∨ 0 ≤ s

instance (f : WFile) : Decidable (wfFile f) := by
  unfold wfFile
  infer_instance

/-- All references across the open list. -/
def allRefs (files : List WFile) : List Int :=
  files.flatMap refsOf

/-- Well-formed open list: every handle is well formed, no fd is held
twice (within or across handles), and handle identities are distinct. -/
def wfState (files : List WFile) : Prop :=
  (∀ f ∈ files, wfFile f) ∧ (allRefs files).Nodup
    ∧ (files.map (fun f => f.id)).Nodup

instance (files : List WFile) : Decidable (wfState files) := by
  unfold wfState
  infer_instance

/-- C5: `file_open` scans the table in registration order and acts on the
first exact match.  No match: returns none and leaves the open list (and,
trivially, the table) untouched.  First match whose constructor fails:
returns none and registers nothing.  First match whose constructor
succeeds: every duplicate slot of the new handle is initialized empty and
the handle is appended to the open list. -/
theorem file_open_spec (table : List file_table_entry) (path : String)
    (fd : Int) (files : List WFile) :
    ((∀ e ∈ table, e.path ≠ path) →
      file_open table path fd files = (none, files))
    ∧ (∀ pre e post, table = pre ++ e :: post →
        (∀ x ∈ pre, x.path ≠ path) → e.path = path →
        (e.openFn path fd = none →
          file_open table path fd files = (none, files))
        ∧ (∀ f, e.openFn path fd = some f →
            file_open table path fd files
              = (some { f with dup_fds := f.dup_fds.map (fun _ => (-1 : Int)) },
                 files
                   ++ [{ f with
                          dup_fds := f.dup_fds.map (fun _ => (-1 : Int)) }]))) := by
  constructor
  · intro hnone
    induction table with
    | nil => rfl
    | cons e rest ih =>
      have he : e.path ≠ path := hnone e (by simp)
      simp only [file_open, if_neg he]
      exact ih (fun x hx => hnone x (by simp [hx]))
  · intro pre e post htab hpre hmatch
    subst htab
    induction pre with
    | nil =>
      constructor
      · intro hfail
        simp [file_open, hmatch, hfail]
      · intro f hsucc
        simp [file_open, hmatch, hsucc]
    | cons x rest ih =>
      have hx : x.path ≠ path := hpre x (by simp)
      simp only [List.cons_append, file_open, if_neg hx]
      exact ih (fun y hy => hpre y (by simp [hy]))

theorem file_open_spec_witness :
    file_open
        [{ path := "/dev/tegra", openFn := fun p fd =>
            some { id := 7, path := p, fd := fd, dup_fds := [5, 5],
                   hasRelease := true } }]
        "/dev/tegra" 3 []
      = (some { id := 7, path := "/dev/tegra", fd := 3, dup_fds := [-1, -1],
                hasRelease := true },
         [{ id := 7, path := "/dev/tegra", fd := 3, dup_fds := [-1, -1],
            hasRelease := true }]) :=
  ((file_open_spec _ "/dev/tegra" 3 []).2 [] _ [] rfl (by simp) rfl).2
    { id := 7, path := "/dev/tegra", fd := 3, dup_fds := [5, 5],
      hasRelease := true } rfl

theorem dupSlots_split (fd : Int) (pre : List Int) (s : Int)
    (post : List Int) (hpre : ∀ x ∈ pre, 0 ≤ x) (hs : s < 0) :
    dupSlots fd (pre ++ s :: post) = some (pre ++ fd :: post) := by
  induction pre with
  | nil => simp [dupSlots, hs]
  | cons x rest ih =>
    have hx : ¬ x < 0 := by
      have := hpre x (by simp)
      omega
    have hr := ih (fun y hy => hpre y (by simp [hy]))
    simp [dupSlots, if_neg hx, List.append_eq, hr]

theorem dupSlots_none (fd : Int) (l : List Int) (hall : ∀ x ∈ l, 0 ≤ x) :
    dupSlots fd l = none := by
  induction l with
  | nil => rfl
  | cons x rest ih =>
    have hx : ¬ x < 0 := by
      have := hall x (by simp)
      omega
    have hr := ih (fun y hy => hall y (by simp [hy]))
    simp [dupSlots, if_neg hx, hr]

/-- C6: `file_dup` stores the new fd into the first (lowest-index) empty
duplicate slot; when every slot is occupied it reports exhaustion
(returns `false`) and changes nothing — the file, all its slots and its
primary fd are returned exactly as they were (and the open list is never
touched by `file_dup`). -/
theorem file_dup_spec (f : WFile) (fd : Int) :
    (∀ pre s post, f.dup_fds = pre ++ s :: post → (∀ x ∈ pre, 0 ≤ x) →
      s < 0 →
      file_dup f fd = ({ f with dup_fds := pre ++ fd :: post }, true))
    ∧ ((∀ s ∈ f.dup_fds, 0 ≤ s) → file_dup f fd = (f, false)) := by
  constructor
  · intro pre s post hsplit hpre hs
    have hds : dupSlots fd f.dup_fds = some (pre ++ fd :: post) := by
      rw [hsplit]
      exact dupSlots_split fd pre s post hpre hs
    simp [file_dup, hds]
  · intro hall
    simp [file_dup, dupSlots_none fd f.dup_fds hall]

theorem file_dup_spec_witness :
    file_dup { id := 1, path := "p", fd := 3, dup_fds := [7, -1, 8],
               hasRelease := true } 9
      = ({ id := 1, path := "p", fd := 3, dup_fds := [7, 9, 8],
           hasRelease := true }, true)
    ∧ file_dup { id := 1, path := "p", fd := 3, dup_fds := [7, 8],
                 hasRelease := true } 9
      = ({ id := 1, path := "p", fd := 3, dup_fds := [7, 8],
           hasRelease := true }, false) :=
  ⟨(file_dup_spec _ 9).1 [7] (-1) [8] rfl (by decide) (by decide),
   (file_dup_spec _ 9).2 (by decide)⟩

theorem refsOf_nonneg (f : WFile) : ∀ x ∈ refsOf f, 0 ≤ x := by
  intro x hx
  rcases List.mem_append.mp hx with h | h
  · by_cases h0 : (0:Int) ≤ f.fd
    · rw [if_pos h0] at h
      have : x = f.fd := by simpa using h
      omega
    · rw [if_neg h0] at h
      simp at h
  · have := List.of_mem_filter h
    simpa using this

theorem mem_refsOf (f : WFile) (fd : Int) :
    fd ∈ refsOf f ↔ 0 ≤ fd ∧ (fd = f.fd ∨ fd ∈ f.dup_fds) := by
  constructor
  · intro h
    rcases List.mem_append.mp h with h | h
    · by_cases h0 : (0:Int) ≤ f.fd
      · rw [if_pos h0] at h
        have he : fd = f.fd := by simpa using h
        exact ⟨he ▸ h0, Or.inl he⟩
      · rw [if_neg h0] at h
        simp at h
    · have hm := List.mem_filter.mp h
      exact ⟨by simpa using hm.2, Or.inr hm.1⟩
  · rintro ⟨h0, he | hm⟩
    · refine List.mem_append.mpr (Or.inl ?_)
      rw [he, if_pos (he ▸ h0)]
      simp
    · refine List.mem_append.mpr (Or.inr ?_)
      exact List.mem_filter.mpr ⟨hm, by simpa using h0⟩

theorem occSlots_eq_nil_iff (l : List Int) :
    occSlots l = [] ↔ ∀ s ∈ l, ¬ (0 ≤ s) := by
  simp [occSlots, List.filter_eq_nil_iff]

theorem clearFirst_of_not_mem (fd : Int) (l : List Int) (h : fd ∉ l) :
    clearFirst fd l = none := by
  induction l with
  | nil => rfl
  | cons s rest ih =>
    have hs : s ≠ fd := fun e => h (by simp [e])
    have hr : fd ∉ rest := fun m => h (by simp [m])
    simp [clearFirst, hs, ih hr]

theorem clearFirst_isSome_of_mem (fd : Int) (l : List Int) (hm : fd ∈ l) :
    ∃ slots, clearFirst fd l = some slots := by
  induction l with
  | nil => cases hm
  | cons s rest ih =>
    by_cases hs : s = fd
    · exact ⟨-1 :: rest, by simp [clearFirst, hs]⟩
    · rcases List.mem_cons.mp hm with he | hmm
      · exact absurd he.symm hs
      · obtain ⟨l', hl'⟩ := ih hmm
        exact ⟨s :: l', by simp [clearFirst, hs, hl']⟩

theorem clearFirst_none_imp (fd : Int) (l : List Int)
    (h : clearFirst fd l = none) : fd ∉ l := by
  intro hm
  obtain ⟨slots, hs⟩ := clearFirst_isSome_of_mem fd l hm
  rw [hs] at h
  cases h

theorem clearFirst_mem (fd : Int) (l slots : List Int)
    (h : clearFirst fd l = some slots) : fd ∈ l := by
  by_cases hm : fd ∈ l
  · exact hm
  · rw [clearFirst_of_not_mem fd l hm] at h
    cases h

theorem clearFirst_neg_one_eq (l slots : List Int)
    (h : clearFirst (-1) l = some slots) : slots = l := by
  induction l generalizing slots with
  | nil => simp [clearFirst] at h
  | cons s rest ih =>
    by_cases hs : s = -1
    · subst hs
      simp only [clearFirst, if_pos rfl] at h
      injection h with h
      exact h.symm
    · simp only [clearFirst, if_neg hs] at h
      rcases hr : clearFirst (-1) rest with _ | l''
      · rw [hr] at h
        simp at h
      · rw [hr] at h
        simp only [Option.map_some'] at h
        injection h with h
        rw [← h, ih l'' hr]

theorem clearFirst_elems (fd : Int) (l slots : List Int)
    (h : clearFirst fd l = some slots) : ∀ s ∈ slots, s = -1 ∨ s ∈ l := by
  induction l generalizing slots with
  | nil => simp [clearFirst] at h
  | cons x rest ih =>
    by_cases hx : x = fd
    · simp only [clearFirst, if_pos hx] at h
      injection h with h
      subst h
      intro s hs
      rcases List.mem_cons.mp hs with he | hm
      · exact Or.inl he
      · exact Or.inr (by simp [hm])
    · simp only [clearFirst, if_neg hx] at h
      rcases hr : clearFirst fd rest with _ | l''
      · rw [hr] at h
        simp at h
      · rw [hr] at h
        simp only [Option.map_some'] at h
        injection h with h
        subst h
        intro s hs
        rcases List.mem_cons.mp hs with he | hm
        · exact Or.inr (by simp [he])
        · rcases ih l'' hr s hm with h1 | h1
          · exact Or.inl h1
          · exact Or.inr (by simp [h1])

theorem clearFirst_occSlots (fd : Int) (l slots : List Int) (h0 : 0 ≤ fd)
    (h : clearFirst fd l = some slots) :
    occSlots slots = (occSlots l).erase fd := by
  induction l generalizing slots with
  | nil => simp [clearFirst] at h
  | cons x rest ih =>
    by_cases hx : x = fd
    · subst hx
      simp only [clearFirst, if_pos rfl] at h
      injection h with h
      subst h
      have l1 : occSlots (-1 :: rest) = occSlots rest := by
        simp [occSlots]
      have l2 : occSlots (x :: rest) = x :: occSlots rest := by
        simp [occSlots, h0]
      rw [l1, l2, List.erase_cons_head]
    · simp only [clearFirst, if_neg hx] at h
      rcases hr : clearFirst fd rest with _ | l''
      · rw [hr] at h
        simp at h
      · rw [hr] at h
        simp only [Option.map_some'] at h
        injection h with h
        subst h
        by_cases h0x : (0:Int) ≤ x
        · have l1 : occSlots (x :: l'') = x :: occSlots l'' := by
            simp [occSlots, h0x]
          have l2 : occSlots (x :: rest) = x :: occSlots rest := by
            simp [occSlots, h0x]
          rw [l1, l2, List.erase_cons_tail (by simp [hx]), ih l'' hr]
        · have l1 : occSlots (x :: l'') = occSlots l'' := by
            simp [occSlots, h0x]
          have l2 : occSlots (x :: rest) = occSlots rest := by
            simp [occSlots, h0x]
          rw [l1, l2, ih l'' hr]

/-- C10: closing an fd that is neither the primary fd nor an occupied
duplicate slot of any open handle is a no-op — no release capability runs,
no handle is removed, and every handle's primary fd and duplicate slots
are left exactly as they were. -/
theorem file_close_noop (fd : Int) (files : List WFile)
    (hwf : ∀ f ∈ files, wfFile f)
    (hprim : ∀ f ∈ files, f.fd ≠ fd)
    (hdup : ∀ f ∈ files, ∀ s ∈ f.dup_fds, 0 ≤ s → s ≠ fd) :
    file_close fd files = (files, []) := by
  induction files with
  | nil => rfl
  | cons f rest ih =>
    have hp : f.fd ≠ fd := hprim f (by simp)
    rcases hclear : clearFirst fd f.dup_fds with _ | slots
    · have hrest := ih (fun g hg => hwf g (by simp [hg]))
        (fun g hg => hprim g (by simp [hg]))
        (fun g hg => hdup g (by simp [hg]))
      simp [file_close, hp, hclear, hrest]
    · have hmem : fd ∈ f.dup_fds := clearFirst_mem fd _ _ hclear
      have hneg : fd = -1 := by
        rcases (hwf f (by simp)).2 fd hmem with h | h
        · exact h
        · exact absurd rfl (hdup f (by simp) fd hmem h)
      subst hneg
      have hslots : slots = f.dup_fds := clearFirst_neg_one_eq _ _ hclear
      subst hslots
      simp [file_close, hp, hclear]

theorem file_close_act (f : WFile) (post : List WFile) (fd : Int)
    (hwf : wfFile f) (hfd : fd ∈ refsOf f) :
    ∃ f', f'.id = f.id ∧ f'.hasRelease = f.hasRelease ∧ wfFile f'
      ∧ refsOf f' = (refsOf f).erase fd
      ∧ ((refsOf f).erase fd = [] →
          file_close fd (f :: post) = (post, file_put f'))
      ∧ ((refsOf f).erase fd ≠ [] →
          file_close fd (f :: post) = (f' :: post, [])) := by
  have h0 : 0 ≤ fd := refsOf_nonneg f fd hfd
  by_cases hp : f.fd = fd
  · have h0f : (0:Int) ≤ f.fd := hp ▸ h0
    have e1 : refsOf { f with fd := -1 } = occSlots f.dup_fds := by
      have : ¬ ((0:Int) ≤ -1) := by decide
      simp [refsOf, this]
    have e2 : refsOf f = f.fd :: occSlots f.dup_fds := by
      rw [refsOf, if_pos h0f]
      rfl
    have e3 : (refsOf f).erase fd = occSlots f.dup_fds := by
      rw [e2, hp, List.erase_cons_head]
    refine ⟨{ f with fd := -1 }, rfl, rfl, ⟨Or.inl rfl, hwf.2⟩, ?_, ?_, ?_⟩
    · rw [e1, e3]
    · intro hemp
      rw [e3] at hemp
      have hno : ¬ ∃ s ∈ f.dup_fds, 0 ≤ s := by
        rw [occSlots_eq_nil_iff] at hemp
        rintro ⟨s, hs, hs0⟩
        exact hemp s hs hs0
      simp [file_close, hp, hno]
    · intro hne
      rw [e3] at hne
      have hyes : ∃ s ∈ f.dup_fds, 0 ≤ s := by
        rcases List.exists_mem_of_ne_nil _ hne with ⟨s, hs⟩
        have hm := List.mem_filter.mp hs
        exact ⟨s, hm.1, by simpa using hm.2⟩
      simp [file_close, hp, hyes]
  · have hmem : fd ∈ f.dup_fds := by
      rcases (mem_refsOf f fd).mp hfd with ⟨_, he | hm⟩
      · exact absurd he.symm hp
      · exact hm
    obtain ⟨slots, hclear⟩ := clearFirst_isSome_of_mem fd f.dup_fds hmem
    have hocc : occSlots slots = (occSlots f.dup_fds).erase fd :=
      clearFirst_occSlots fd _ slots h0 hclear
    have hwfs : ∀ s ∈ slots, s = -1 ∨ 0 ≤ s := by
      intro s hs
      rcases clearFirst_elems fd _ slots hclear s hs with h | h
      · exact Or.inl h
      · exact hwf.2 s h
    have hfdne : fd ∉ (if (0:Int) ≤ f.fd then [f.fd] else []) := by
      by_cases h0f : (0:Int) ≤ f.fd
      · rw [if_pos h0f]
        intro hmm
        have he : fd = f.fd := by simpa using hmm
        exact hp he.symm
      · rw [if_neg h0f]
        simp
    have herase : (refsOf f).erase fd
        = (if (0:Int) ≤ f.fd then [f.fd] else [])
            ++ (occSlots f.dup_fds).erase fd := by
      rw [refsOf]
      exact List.erase_append_right _ hfdne
    have hrefs : refsOf { f with dup_fds := slots } = (refsOf f).erase fd := by
      have : refsOf { f with dup_fds := slots }
          = (if (0:Int) ≤ f.fd then [f.fd] else []) ++ occSlots slots := rfl
      rw [this, hocc, herase]
    refine ⟨{ f with dup_fds := slots }, rfl, rfl, ⟨hwf.1, hwfs⟩, hrefs, ?_, ?_⟩
    · intro hemp
      rw [herase] at hemp
      have hif := (List.append_eq_nil.mp hemp).1
      have hocc0 := (List.append_eq_nil.mp hemp).2
      have hfdneg : f.fd = -1 := by
        by_cases h0f : (0:Int) ≤ f.fd
        · rw [if_pos h0f] at hif
          cases hif
        · rcases hwf.1 with h | h
          · exact h
          · exact absurd h h0f
      have hnotex : ¬ ∃ s ∈ slots, s ≠ -1 := by
        rintro ⟨s, hs, hne⟩
        rcases hwfs s hs with h | h
        · exact hne h
        · have : s ∈ occSlots slots :=
            List.mem_filter.mpr ⟨hs, by simpa using h⟩
          rw [hocc, hocc0] at this
          cases this
      have hneq : ¬ ((-1:Int) = fd) := by omega
      simp [file_close, hp, hclear, hfdneg, hnotex, hneq]
    · intro hne
      by_cases hfdneg : f.fd = -1
      · have hifnil : (if (0:Int) ≤ f.fd then [f.fd] else []) = [] := by
          rw [if_neg]
          rw [hfdneg]
          decide
        have hocc_ne : occSlots slots ≠ [] := by
          rw [hocc]
          intro he
          apply hne
          rw [herase, hifnil, he]
          rfl
        have hex : ∃ s ∈ slots, s ≠ -1 := by
          rcases List.exists_mem_of_ne_nil _ hocc_ne with ⟨s, hs⟩
          have hm := List.mem_filter.mp hs
          refine ⟨s, hm.1, ?_⟩
          have : (0:Int) ≤ s := by simpa using hm.2
          omega
        have hneq : ¬ ((-1:Int) = fd) := by omega
        simp [file_close, hp, hclear, hfdneg, hex, hneq]
      · simp [file_close, hp, hclear, hfdneg]

theorem not_ref_of_not_mem_refs (g : WFile) (fd : Int) (h0 : 0 ≤ fd)
    (h : fd ∉ refsOf g) : g.fd ≠ fd ∧ fd ∉ g.dup_fds := by
  constructor
  · intro e
    exact h ((mem_refsOf g fd).mpr ⟨h0, Or.inl e.symm⟩)
  · intro m
    exact h ((mem_refsOf g fd).mpr ⟨h0, Or.inr m⟩)

theorem file_close_skip (fd : Int) (g : WFile) (t : List WFile)
    (h1 : g.fd ≠ fd) (h2 : fd ∉ g.dup_fds) :
    file_close fd (g :: t)
      = (g :: (file_close fd t).1, (file_close fd t).2) := by
  simp [file_close, h1, clearFirst_of_not_mem fd _ h2]

theorem file_close_pre (fd : Int) (pre rest : List WFile)
    (hpre : ∀ g ∈ pre, fd ∉ refsOf g) (h0 : 0 ≤ fd) :
    file_close fd (pre ++ rest)
      = (pre ++ (file_close fd rest).1, (file_close fd rest).2) := by
  induction pre with
  | nil => simp
  | cons g t ih =>
    have hg := not_ref_of_not_mem_refs g fd h0 (hpre g (by simp))
    rw [List.cons_append, file_close_skip fd g (t ++ rest) hg.1 hg.2,
      ih (fun x hx => hpre x (by simp [hx]))]
    simp

theorem file_close_split (fd : Int) (pre post : List WFile) (f : WFile)
    (hpre : ∀ g ∈ pre, fd ∉ refsOf g) (hwf : wfFile f)
    (hfd : fd ∈ refsOf f) :
    ∃ f', f'.id = f.id ∧ f'.hasRelease = f.hasRelease ∧ wfFile f'
      ∧ refsOf f' = (refsOf f).erase fd
      ∧ ((refsOf f).erase fd = [] →
          file_close fd (pre ++ f :: post) = (pre ++ post, file_put f'))
      ∧ ((refsOf f).erase fd ≠ [] →
          file_close fd (pre ++ f :: post) = (pre ++ f' :: post, [])) := by
  have h0 : 0 ≤ fd := refsOf_nonneg f fd hfd
  obtain ⟨f', h1, h2, h3, h4, h5, h6⟩ := file_close_act f post fd hwf hfd
  refine ⟨f', h1, h2, h3, h4, ?_, ?_⟩
  · intro hemp
    rw [file_close_pre fd pre (f :: post) hpre h0, h5 hemp]
  · intro hne
    rw [file_close_pre fd pre (f :: post) hpre h0, h6 hne]

theorem allRefs_append (a b : List WFile) :
    allRefs (a ++ b) = allRefs a ++ allRefs b := by
  induction a with
  | nil => rfl
  | cons f t ih =>
    show refsOf f ++ allRefs (t ++ b) = (refsOf f ++ allRefs t) ++ allRefs b
    rw [ih, List.append_assoc]

theorem mem_allRefs (s : List WFile) (g : WFile) (x : Int)
    (hg : g ∈ s) (hx : x ∈ refsOf g) : x ∈ allRefs s := by
  induction s with
  | nil => cases hg
  | cons h t ih =>
    rcases List.mem_cons.mp hg with he | hm
    · subst he
      exact List.mem_append.mpr (Or.inl hx)
    · exact List.mem_append.mpr (Or.inr (ih hm))

theorem wfState_cons (g : WFile) (t : List WFile) (hwf : wfState (g :: t)) :
    wfState t ∧ (∀ x ∈ refsOf g, x ∉ allRefs t) ∧ wfFile g := by
  obtain ⟨hA, hB, hC⟩ := hwf
  have hB' : (refsOf g ++ allRefs t).Nodup := hB
  rw [List.nodup_append] at hB'
  exact ⟨⟨fun x hx => hA x (by simp [hx]), hB'.2.1,
          (List.nodup_cons.mp hC).2⟩, hB'.2.2, hA g (by simp)⟩

theorem wfState_not_ref_pre (pre post : List WFile) (f : WFile) (fd : Int)
    (hwf : wfState (pre ++ f :: post)) (hfd : fd ∈ refsOf f) :
    ∀ g ∈ pre, fd ∉ refsOf g := by
  intro g hg hmem
  obtain ⟨_, hB, _⟩ := hwf
  rw [allRefs_append] at hB
  have hdisj := List.disjoint_of_nodup_append hB
  exact hdisj (mem_allRefs pre g fd hg hmem)
    (mem_allRefs (f :: post) f fd (by simp) hfd)

theorem wfState_replace (pre post : List WFile) (f f' : WFile)
    (hwf : wfState (pre ++ f :: post)) (hid : f'.id = f.id)
    (hwff : wfFile f') (hsub : List.Sublist (refsOf f') (refsOf f)) :
    wfState (pre ++ f' :: post) := by
  obtain ⟨hA, hB, hC⟩ := hwf
  refine ⟨?_, ?_, ?_⟩
  · intro g hg
    rcases List.mem_append.mp hg with h | h
    · exact hA g (by simp [h])
    · rcases List.mem_cons.mp h with h | h
      · subst h
        exact hwff
      · exact hA g (by simp [h])
  · have e1 : allRefs (pre ++ f' :: post)
        = allRefs pre ++ (refsOf f' ++ allRefs post) := by
      rw [allRefs_append]
      rfl
    have e2 : allRefs (pre ++ f :: post)
        = allRefs pre ++ (refsOf f ++ allRefs post) := by
      rw [allRefs_append]
      rfl
    rw [e1]
    rw [e2] at hB
    exact ((List.Sublist.refl _).append
      (hsub.append (List.Sublist.refl _))).nodup hB
  · have e : (pre ++ f' :: post).map (fun g => g.id)
        = (pre ++ f :: post).map (fun g => g.id) := by
      simp [hid]
    rw [e]
    exact hC

theorem wfState_remove (pre post : List WFile) (f : WFile)
    (hwf : wfState (pre ++ f :: post)) : wfState (pre ++ post) := by
  obtain ⟨hA, hB, hC⟩ := hwf
  have hsubf : List.Sublist (pre ++ post) (pre ++ f :: post) :=
    (List.Sublist.refl pre).append (List.sublist_cons_self f post)
  refine ⟨?_, ?_, ?_⟩
  · intro g hg
    exact hA g (hsubf.mem hg)
  · have hsub : List.Sublist (allRefs (pre ++ post))
        (allRefs (pre ++ f :: post)) := by
      rw [allRefs_append, allRefs_append]
      refine (List.Sublist.refl _).append ?_
      show List.Sublist (allRefs post) (refsOf f ++ allRefs post)
      exact List.sublist_append_right _ _
    exact hsub.nodup hB
  · exact (hsubf.map (fun g => g.id)).nodup hC

theorem file_lookup_refs (pre post : List WFile) (f : WFile) (d : Int)
    (hwf : wfState (pre ++ f :: post)) (hd : d ∈ refsOf f) :
    file_lookup d (pre ++ f :: post) = some f := by
  have h0 : 0 ≤ d := refsOf_nonneg f d hd
  induction pre with
  | nil =>
    simp only [List.nil_append]
    rcases (mem_refsOf f d).mp hd with ⟨_, he | hm⟩
    · simp [file_lookup, he.symm]
    · by_cases he : f.fd = d
      · simp [file_lookup, he]
      · simp [file_lookup, he, hm]
  | cons g t ih =>
    have hw := wfState_cons g (t ++ f :: post) hwf
    have hnr : d ∉ refsOf g := by
      intro hmm
      exact hw.2.1 d hmm (mem_allRefs _ f d (by simp) hd)
    have hg := not_ref_of_not_mem_refs g d h0 hnr
    rw [List.cons_append]
    rw [show file_lookup d (g :: (t ++ f :: post))
        = file_lookup d (t ++ f :: post) from by
      simp [file_lookup, hg.1, hg.2]]
    exact ih hw.1

theorem file_close_seq_master (order : List Int) (pre post : List WFile)
    (f : WFile) (hwf : wfState (pre ++ f :: post))
    (hperm : order.Perm (refsOf f)) :
    (order ≠ [] →
      ∃ g, file_close_seq order (pre ++ f :: post) = (pre ++ post, file_put g)
        ∧ g.id = f.id ∧ g.hasRelease = f.hasRelease)
    ∧ (∀ p q, order = p ++ q → q ≠ [] →
        ∃ f', file_close_seq p (pre ++ f :: post) = (pre ++ f' :: post, [])
          ∧ f'.id = f.id ∧ f'.hasRelease = f.hasRelease
          ∧ wfState (pre ++ f' :: post) ∧ (refsOf f').Perm q) := by
  induction order generalizing f with
  | nil =>
    constructor
    · intro h
      exact absurd rfl h
    · intro p q hpq hq
      have hq' : q = [] := (List.append_eq_nil.mp hpq.symm).2
      exact absurd hq' hq
  | cons fd rest ih =>
    have hmem : fd ∈ refsOf f := hperm.mem_iff.mp (by simp)
    have hpre := wfState_not_ref_pre pre post f fd hwf hmem
    obtain ⟨f₁, hid, hrel, hwff₁, hrefs, hclose_nil, hclose_keep⟩ :=
      file_close_split fd pre post f hpre (hwf.1 f (by simp)) hmem
    have hrest : rest.Perm ((refsOf f).erase fd) :=
      (List.cons_perm_iff_perm_erase.mp hperm).2
    by_cases hr : rest = []
    · subst hr
      have herase : (refsOf f).erase fd = [] := hrest.symm.eq_nil
      have hcl := hclose_nil herase
      constructor
      · intro _
        exact ⟨f₁, by simp [file_close_seq, hcl], hid, hrel⟩
      · intro p q hpq hq
        cases p with
        | nil =>
          refine ⟨f, by simp [file_close_seq], rfl, rfl, hwf, ?_⟩
          have hqe : q = [fd] := by simpa using hpq.symm
          rw [hqe]
          exact hperm.symm
        | cons a p' =>
          rw [List.cons_append] at hpq
          injection hpq with h1 h2
          have hq' : q = [] := (List.append_eq_nil.mp h2.symm).2
          exact absurd hq' hq
    · have herase : (refsOf f).erase fd ≠ [] := by
        intro he
        rw [he] at hrest
        exact hr hrest.eq_nil
      have hcl := hclose_keep herase
      have hwf₁ : wfState (pre ++ f₁ :: post) :=
        wfState_replace pre post f f₁ hwf hid hwff₁
          (by rw [hrefs]; exact List.erase_sublist fd (refsOf f))
      have hperm₁ : rest.Perm (refsOf f₁) := by
        rw [hrefs]
        exact hrest
      obtain ⟨ih1, ih2⟩ := ih f₁ hwf₁ hperm₁
      constructor
      · intro _
        obtain ⟨g, hg1, hg2, hg3⟩ := ih1 hr
        refine ⟨g, ?_, hg2.trans hid, hg3.trans hrel⟩
        simp [file_close_seq, hcl, hg1]
      · intro p q hpq hq
        cases p with
        | nil =>
          refine ⟨f, by simp [file_close_seq], rfl, rfl, hwf, ?_⟩
          have hqe : q = fd :: rest := by simpa using hpq.symm
          rw [hqe]
          exact hperm.symm
        | cons a p' =>
          rw [List.cons_append] at hpq
          injection hpq with h1 h2
          obtain ⟨f', hf'1, hf'2, hf'3, hf'4, hf'5⟩ := ih2 p' q h2 hq
          refine ⟨f', ?_, hf'2.trans hid, hf'3.trans hrel, hf'4, hf'5⟩
          rw [← h1]
          simp [file_close_seq, hcl, hf'1]

/-- C1: with a well-formed open-handle set, take any handle `f` carrying a
release capability and close its references (primary fd and occupied
duplicate-slot fds) one per call, in any order.  The release capability
runs exactly once, on the close of the last remaining reference; after
every proper prefix of the closes no release has run, the handle is still
in the open set, and `file_lookup` on each of its remaining reference fds
(in particular every occupied duplicate fd once the primary is closed)
still returns the handle; the handle leaves the open set only on the final
close. -/
theorem file_close_release_exactly_once (files : List WFile) (f : WFile)
    (order : List Int) (hwf : wfState files) (hf : f ∈ files)
    (hrel : f.hasRelease = true) (hperm : order.Perm (refsOf f))
    (hne : order ≠ []) :
    ((file_close_seq order files).2.filter
        (fun g => g.id == f.id)).length = 1
    ∧ (∀ g ∈ (file_close_seq order files).1, g.id ≠ f.id)
    ∧ (∀ p q, order = p ++ q → q ≠ [] →
        (file_close_seq p files).2 = []
        ∧ ∃ f', f' ∈ (file_close_seq p files).1 ∧ f'.id = f.id
            ∧ ∀ d ∈ refsOf f',
                file_lookup d (file_close_seq p files).1 = some f') := by
  obtain ⟨pre, post, rfl⟩ := List.append_of_mem hf
  obtain ⟨m1, m2⟩ := file_close_seq_master order pre post f hwf hperm
  obtain ⟨g, hg1, hg2, hg3⟩ := m1 hne
  refine ⟨?_, ?_, ?_⟩
  · rw [hg1]
    have hgrel : g.hasRelease = true := hg3.trans hrel
    simp [file_put, hgrel, hg2]
  · rw [hg1]
    intro g' hg' he
    have hC := hwf.2.2
    rw [List.map_append] at hC
    rcases List.mem_append.mp hg' with h | h
    · have hdisj := List.disjoint_of_nodup_append hC
      exact hdisj (List.mem_map.mpr ⟨g', h, rfl⟩)
        (by rw [he]; exact List.mem_map.mpr ⟨f, by simp, rfl⟩)
    · have hcons : (f.id :: post.map (fun x => x.id)).Nodup := by
        simpa using (List.nodup_append.mp hC).2.1
      exact (List.nodup_cons.mp hcons).1
        (by rw [← he]; exact List.mem_map.mpr ⟨g', h, rfl⟩)
  · intro p q hpq hq
    obtain ⟨f', hf'1, hf'2, _, hf'4, _⟩ := m2 p q hpq hq
    rw [hf'1]
    refine ⟨rfl, f', by simp, hf'2, ?_⟩
    intro d hd
    exact file_lookup_refs pre post f' d hf'4 hd

theorem file_close_release_exactly_once_witness :
    ((file_close_seq [3, 4]
        [{ id := 0, path := "/dev/x", fd := 3, dup_fds := [4, -1],
           hasRelease := true }]).2.filter
        (fun g => g.id == 0)).length = 1 :=
  (file_close_release_exactly_once
    [{ id := 0, path := "/dev/x", fd := 3, dup_fds := [4, -1],
       hasRelease := true }]
    { id := 0, path := "/dev/x", fd := 3, dup_fds := [4, -1],
      hasRelease := true }
    [3, 4] (by decide) (by simp) rfl (by decide) (by decide)).1

theorem file_close_noop_witness :
    file_close 9
        [{ id := 0, path := "/dev/x", fd := 3, dup_fds := [4, -1],
           hasRelease := true }]
      = ([{ id := 0, path := "/dev/x", fd := 3, dup_fds := [4, -1],
            hasRelease := true }], []) :=
  file_close_noop 9 _ (by decide) (by decide) (by decide)
